import Mathlib

/-
Verification development for `electrum/gui/qt/history_list.py`.

The module keeps an on-screen table of wallet transactions in sync with a
freshly fetched transaction list.  We embed the state that the reconciliation
code manipulates:

  * `transactions`   : the `OrderedDict` keyed by txid (insertion ordered),
  * `txid_to_items`  : the dict from txid to the row's list of cells
                       (in Qt the same item objects are also the model's row,
                       so a source-model row's cells are exactly the value
                       stored here),
  * `model_rows`     : the source model's rows, each represented by the
                       txid carried in its items' `TX_HASH_ROLE` data.

Python dicts preserve insertion order; we embed both dicts as association
lists.  External wallet / fiat / formatting queries are opaque pure
functions collected in `Env`.  View-only visibility flags (`setRowHidden`)
are not part of this state; the per-row visibility decision of `hide_row`
is embedded separately as a pure function.
-/

set_option maxHeartbeats 1000000

/-- Foreground brush of a cell: the palette default, `#BC1E1E` (red_brush)
or `#1E1EFF` (blue_brush). -/
inductive ItemColor where
  | defaultColor
  | red
  | blue
deriving DecidableEq, Repr

/-- A `QStandardItem` cell as far as `history_list.py` touches it:
text, icon, tooltip, the `SortableTreeWidgetItem.DataRole` payload
`(status, conf)`, the `TX_HASH_ROLE` payload, foreground brush,
editability, alignment and font. -/
structure QtItem where
  text : String
  icon : Option String := none
  toolTip : Option String := none
  sortData : Option (Nat × Nat) := none
  txHashRole : String := ""
  foreground : ItemColor := ItemColor.defaultColor
  editable : Bool := true
  alignRight : Bool := false
  monospace : Bool := false
deriving DecidableEq, Repr

/-- A fresh `QStandardItem("")`. -/
def blankItem : QtItem := { text := "" }

/-- One entry of `r['transactions']` as produced by
`wallet.get_full_history` and consumed by this module.  `value` and
`balance` are the `.value` integers of the `Satoshis` objects; the fiat
fields are present (`some`) exactly when the wallet attached them; `date`
is the timestamp rendered as a day (or `None` for unconfirmed), embedded
as an abstract ordered stamp. -/
structure TxRecord where
  txid : String
  height : Int
  confirmations : Nat
  timestamp : Option Nat
  value : Int
  balance : Int
  label : String
  date : Option Nat
  fiat_value : Option Int := none
  fiat_default : Bool := false
  acquisition_price : Int := 0
  capital_gain : Int := 0
  fee : Option Int := none
  fiat_fee : Option Int := none
deriving DecidableEq, Repr

/-- `TxMinedStatus(height, conf, timestamp, None)` as used here. -/
structure TxMinedStatus where
  height : Int
  conf : Nat
  timestamp : Option Nat
deriving DecidableEq, Repr

/-- The external queries the view consumes (wallet, fiat exchange,
window formatting helpers), all opaque to this module.
`format_amount v d w` stands for `parent.format_amount(v, is_diff=d,
whitespaces=w)`; `show_history` for `fx.show_history()` (it also decides
whether column 5 is editable, as `refresh_headers` configures);
`cap_gains` for `fx.get_history_capital_gains_config()`. -/
structure Env where
  get_tx_status : String → TxMinedStatus → Nat × String
  get_tx_height : String → TxMinedStatus
  format_amount : Int → Bool → Bool → String
  has_invoice : String → Bool
  show_history : Bool
  cap_gains : Bool
  format_fiat : Int → String

/-- The view state the reconciliation code mutates. -/
structure HState where
  transactions : List (String × TxRecord)
  txid_to_items : List (String × List QtItem)
  model_rows : List String
deriving DecidableEq, Repr

/-! ### Ordered-dictionary primitives

Python dict/`OrderedDict` operations on association lists: assignment
keeps the position of an existing key and appends a fresh one; deletion
removes the key's binding; lookup finds the binding. -/

/-- The key list (iteration order) of a dict. -/
def keyList {α : Type} (l : List (String × α)) : List String := l.map Prod.fst

/-- `d[k]`, as an `Option`. -/
def lookupKey {α : Type} (k : String) : List (String × α) → Option α
  | [] => none
  | (k', v) :: t => if k' = k then some v else lookupKey k t

/-- `d[k] = v`: replace in place when the key exists, append otherwise. -/
def setKey {α : Type} (k : String) (v : α) : List (String × α) → List (String × α)
  | [] => [(k, v)]
  | (k', v') :: t => if k' = k then (k', v) :: t else (k', v') :: setKey k v t

/-- `del d[k]`. -/
def eraseKey {α : Type} (k : String) : List (String × α) → List (String × α)
  | [] => []
  | (k', v') :: t => if k' = k then t else (k', v') :: eraseKey k t

/-- Replace the value bound to `k` (in-place mutation of the stored object,
like `old.clear(); old.update(**row)` or mutating the item list). -/
def modifyVal {α : Type} (k : String) (f : α → α) : List (String × α) → List (String × α)
  | [] => []
  | (k', v') :: t => if k' = k then (k', f v') :: t else (k', v') :: modifyVal k f t

/-- `OrderedDict.move_to_end(k, last=True)`.  (Python raises on a missing
key; the code only calls it right after assigning `k`, so the `none`
branch is unreachable.) -/
def move_to_end {α : Type} (k : String) (l : List (String × α)) : List (String × α) :=
  match lookupKey k l with
  | none => l
  | some v => eraseKey k l ++ [(k, v)]

/-- `list(d.items())[i]`-style in-place edit of the `i`-th element of a
plain list (used for `items[i].setText(...)` etc.). -/
def modifyAt {α : Type} (f : α → α) : List α → Nat → List α
  | [], _ => []
  | x :: t, 0 => f x :: t
  | x :: t, n + 1 => x :: modifyAt f t n

/-- `list(enumerate(keys))`, starting at `n`. -/
def enumFromK (n : Nat) : List String → List (Nat × String)
  | [] => []
  | a :: t => (n, a) :: enumFromK (n + 1) t

/-! ### Basic lemmas about the dictionary primitives -/

@[simp] theorem keyList_nil {α : Type} : keyList ([] : List (String × α)) = [] := rfl

@[simp] theorem keyList_cons {α : Type} (k : String) (v : α) (l : List (String × α)) :
    keyList ((k, v) :: l) = k :: keyList l := rfl

@[simp] theorem keyList_append {α : Type} (l₁ l₂ : List (String × α)) :
    keyList (l₁ ++ l₂) = keyList l₁ ++ keyList l₂ := by
  simp [keyList]

@[simp] theorem lookupKey_nil {α : Type} (k : String) :
    lookupKey k ([] : List (String × α)) = none := rfl

theorem lookupKey_cons {α : Type} (k k' : String) (v : α) (l : List (String × α)) :
    lookupKey k ((k', v) :: l) = if k' = k then some v else lookupKey k l := rfl

theorem lookupKey_eq_none {α : Type} (k : String) (l : List (String × α)) :
    lookupKey k l = none ↔ k ∉ keyList l := by
  induction l with
  | nil => simp
  | cons p t ih =>
    obtain ⟨k', v⟩ := p
    by_cases h : k' = k
    · subst h
      simp [lookupKey_cons]
    · have h' : ¬ k = k' := fun hh => h hh.symm
      simp [lookupKey_cons, h, h', ih]

theorem lookupKey_append_left {α : Type} (k : String) (l₁ l₂ : List (String × α)) (v : α)
    (h : lookupKey k l₁ = some v) : lookupKey k (l₁ ++ l₂) = some v := by
  induction l₁ with
  | nil => simp at h
  | cons p t ih =>
    obtain ⟨k', v'⟩ := p
    by_cases hk : k' = k
    · simp_all [lookupKey_cons]
    · simpa [lookupKey_cons, hk] using ih (by simpa [lookupKey_cons, hk] using h)

theorem lookupKey_append_right {α : Type} (k : String) (l₁ l₂ : List (String × α))
    (h : k ∉ keyList l₁) : lookupKey k (l₁ ++ l₂) = lookupKey k l₂ := by
  induction l₁ with
  | nil => simp
  | cons p t ih =>
    obtain ⟨k', v'⟩ := p
    simp only [keyList_cons, List.mem_cons] at h
    push_neg at h
    have hne : ¬ k' = k := fun hh => h.1 hh.symm
    simp only [List.cons_append, lookupKey_cons, hne, if_false]
    exact ih h.2

theorem setKey_fresh {α : Type} (k : String) (v : α) (l : List (String × α))
    (h : k ∉ keyList l) : setKey k v l = l ++ [(k, v)] := by
  induction l with
  | nil => rfl
  | cons p t ih =>
    obtain ⟨k', v'⟩ := p
    simp only [keyList_cons, List.mem_cons] at h
    push_neg at h
    have hne : ¬ k' = k := fun hh => h.1 hh.symm
    simp [setKey, hne, ih h.2]

@[simp] theorem keyList_modifyVal {α : Type} (k : String) (f : α → α) (l : List (String × α)) :
    keyList (modifyVal k f l) = keyList l := by
  induction l with
  | nil => rfl
  | cons p t ih =>
    obtain ⟨k', v'⟩ := p
    by_cases h : k' = k <;> simp [modifyVal, h, ih]

theorem lookupKey_modifyVal_ne {α : Type} (k k' : String) (f : α → α) (l : List (String × α))
    (h : k' ≠ k) : lookupKey k' (modifyVal k f l) = lookupKey k' l := by
  induction l with
  | nil => rfl
  | cons p t ih =>
    obtain ⟨k₀, v₀⟩ := p
    by_cases h0 : k₀ = k
    · subst h0
      have hne : ¬ k₀ = k' := fun hh => h hh.symm
      simp [modifyVal, lookupKey_cons, hne]
    · simp [modifyVal, h0, lookupKey_cons, ih]

theorem lookupKey_modifyVal_self {α : Type} (k : String) (f : α → α) (l : List (String × α)) :
    lookupKey k (modifyVal k f l) = (lookupKey k l).map f := by
  induction l with
  | nil => rfl
  | cons p t ih =>
    obtain ⟨k₀, v₀⟩ := p
    by_cases h0 : k₀ = k <;> simp [modifyVal, h0, lookupKey_cons, ih]

theorem eraseKey_append_fresh {α : Type} (k : String) (v : α) (l₁ l₂ : List (String × α))
    (h : k ∉ keyList l₁) : eraseKey k (l₁ ++ (k, v) :: l₂) = l₁ ++ l₂ := by
  induction l₁ with
  | nil => simp [eraseKey]
  | cons p t ih =>
    obtain ⟨k', v'⟩ := p
    simp only [keyList_cons, List.mem_cons] at h
    push_neg at h
    have hne : ¬ k' = k := fun hh => h.1 hh.symm
    simp [eraseKey, hne, ih h.2]

theorem lookupKey_eraseKey_ne {α : Type} (k k' : String) (l : List (String × α))
    (h : k' ≠ k) : lookupKey k' (eraseKey k l) = lookupKey k' l := by
  induction l with
  | nil => rfl
  | cons p t ih =>
    obtain ⟨k₀, v₀⟩ := p
    by_cases h0 : k₀ = k
    · subst h0
      have hne : ¬ k₀ = k' := fun hh => h hh.symm
      simp [eraseKey, lookupKey_cons, hne]
    · simp [eraseKey, h0, lookupKey_cons, ih]

theorem fresh_assign_append {α : Type} (k : String) (v : α) (l : List (String × α))
    (h : k ∉ keyList l) : move_to_end k (setKey k v l) = l ++ [(k, v)] := by
  have hs : setKey k v l = l ++ [(k, v)] := setKey_fresh k v l h
  have hl : lookupKey k (l ++ [(k, v)]) = some v := by
    rw [lookupKey_append_right k l _ h]
    simp [lookupKey_cons]
  have he : eraseKey k (l ++ [(k, v)]) = l ++ [] := eraseKey_append_fresh k v l [] h
  simp [move_to_end, hs, hl, he]

/-! ### The embedded operations of `HistoryList`

Everything below is translated from `electrum/gui/qt/history_list.py`.
Source line numbers are given per definition. -/

namespace HistoryList

/-- `TX_ICONS` (lines 49-60). -/
def TX_ICONS : List String :=
  ["unconfirmed.png", "warning.png", "unconfirmed.png", "offline_tx.png",
   "clock1.png", "clock2.png", "clock3.png", "clock4.png", "clock5.png",
   "confirmed.png"]

/-- `filter_columns = [1, 2, 3]  # Date, Description, Amount` (line 79). -/
def filter_columns : List Nat := [1, 2, 3]

/-- `limit_confirmations` (lines 109-112): cap each record's
`confirmations` at 10.  (The key is always present in the records this
module receives.) -/
def limit_tx (t : TxRecord) : TxRecord :=
  if t.confirmations ≥ 10 then { t with confirmations := 10 } else t

/-- `limit_confirmations` applied to the whole fetched list `r['transactions']`. -/
def limit_confirmations (l : List TxRecord) : List TxRecord := l.map limit_tx

/-- `set_item_properties` (lines 418-425): alignment for columns `> 2`,
monospace font for columns `≠ 1`, editability from `editable_columns`
(`{2}`, plus `5` when fiat history is shown, as `refresh_headers`
maintains), and the `TX_HASH_ROLE` data. -/
def set_item_properties (env : Env) (it : QtItem) (i : Nat) (tx_hash : String) : QtItem :=
  let it1 := if 2 < i then { it with alignRight := true } else it
  let it2 := if i ≠ 1 then { it1 with monospace := true } else it1
  let it3 := if ¬ (i = 2 ∨ (env.show_history ∧ i = 5)) then { it2 with editable := false } else it2
  { it3 with txHashRole := tx_hash }

/-- `update_item` (lines 551-563).  The wallet is assumed attached (the
`self.wallet is None` early-out is start-up glue).  When the hash has no
row (`tx_hash not in self.txid_to_items`), return unchanged; otherwise
set icon, tooltip and sort data on item 0 and the status text on item 1. -/
def update_item (env : Env) (tx_hash : String) (tms : TxMinedStatus) (st : HState) : HState :=
  let conf := tms.conf
  let ss := env.get_tx_status tx_hash tms
  let icon := ":icons/" ++ TX_ICONS.getD ss.1 ""
  match lookupKey tx_hash st.txid_to_items with
  | none => st
  | some _ =>
    { st with txid_to_items := modifyVal tx_hash (fun items =>
        modifyAt (fun it => { it with text := ss.2 })
          (modifyAt (fun it => { it with
              icon := some icon,
              toolTip := some (toString conf ++ " confirmation" ++ (if conf ≠ 1 then "s" else "")),
              sortData := some (ss.1, conf) }) items 0) 1) st.txid_to_items }

/-- The body of `ensure`'s while loop (lines 427-434), run `n` times: each
pass appends one fresh blank model cell with `set_item_properties`
applied at the current length. -/
def ensurePad (env : Env) (txid : String) (items : List QtItem) : Nat → List QtItem
  | 0 => items
  | n + 1 => ensurePad env txid (items ++ [set_item_properties env blankItem items.length txid]) n

/-- `ensure(items, idx, txid)` (lines 427-434): grow `items` until it has
`idx + 1` entries. -/
def ensure (env : Env) (txid : String) (items : List QtItem) (idx : Nat) : List QtItem :=
  ensurePad env txid items (idx + 1 - items.length)

/-- `update_fiat` (lines 489-499).  The items list for `txid` is fetched
(the code would raise `KeyError` when absent — unreachable under the
key-set invariant, embedded as no-op), grown to 6 resp. 8 columns, and
columns 5 (and 6, 7 under capital-gains config for spends) are set.
A present `Fiat` instance is always truthy in Python, hence the
`isSome` in the blue-foreground condition and the `.getD 0` for the
`.value` access the code performs on it. -/
def update_fiat (env : Env) (txid : String) (row : TxRecord) (st : HState) : HState :=
  match lookupKey txid st.txid_to_items with
  | none => st
  | some _ =>
    { st with txid_to_items := modifyVal txid (fun items0 =>
        let items1 := ensure env txid items0 (if env.cap_gains then 7 else 5)
        let items2 := modifyAt (fun it => { it with
            foreground := if !row.fiat_default && row.fiat_value.isSome
              then ItemColor.blue else ItemColor.defaultColor,
            text := env.format_fiat (row.fiat_value.getD 0) }) items1 5
        if row.value < 0 && env.cap_gains then
          modifyAt (fun it => { it with text := env.format_fiat row.capital_gain })
            (modifyAt (fun it => { it with text := env.format_fiat row.acquisition_price }) items2 6) 7
        else items2) st.txid_to_items }

/-- `insert_tx` (lines 383-416): build the five cells, mark the invoice
seal, apply the item properties, color spends red, register the items
under the hash, run `update_item` with the wallet's mined status, append
the model row, and fill the fiat columns when fiat history is shown.
(`if value and value < 0` is equivalent to `value < 0` on an integer.
The row-visibility refresh `hide_row` at line 416 only touches the
view's hidden flags, which are not part of this state.) -/
def insert_tx (env : Env) (tx_item : TxRecord) (st : HState) : HState :=
  let tx_hash := tx_item.txid
  let tms : TxMinedStatus := ⟨tx_item.height, tx_item.confirmations, tx_item.timestamp⟩
  let status_str := (env.get_tx_status tx_hash tms).2
  let v_str := env.format_amount tx_item.value true true
  let balance_str := env.format_amount tx_item.balance false true
  let entry : List String := ["", status_str, tx_item.label, v_str, balance_str]
  let items0 := entry.map (fun e => { blankItem with text := e })
  let items1 := if env.has_invoice tx_hash
    then modifyAt (fun it => { it with icon := some ":icons/seal" }) items0 2
    else items0
  let items2 := (items1.enum).map (fun p => set_item_properties env p.2 p.1 tx_hash)
  let items3 := if tx_item.value < 0 then
      modifyAt (fun it => { it with foreground := ItemColor.red })
        (modifyAt (fun it => { it with foreground := ItemColor.red }) items2 2) 3
    else items2
  let st1 := { st with txid_to_items := setKey tx_hash items3 st.txid_to_items }
  let st2 := update_item env tx_hash (env.get_tx_height tx_hash) st1
  let st3 := { st2 with model_rows := st2.model_rows ++ [tx_hash] }
  if env.show_history then update_fiat env tx_hash tx_item st3 else st3

/-- The three statements `self.transactions[txid] = row;
self.transactions.move_to_end(txid, last=True); self.insert_tx(row)`
shared by the fast path (lines 452-454) and the walk's insertion branch
(lines 463-465). -/
def freshStep (env : Env) (row : TxRecord) (st : HState) : HState :=
  insert_tx env row
    { st with transactions := move_to_end row.txid (setKey row.txid row st.transactions) }

/-- The walk's in-place update branch (lines 470-476): refresh the
status cells, the fiat cells when shown, the balance cell's text, and
overwrite the stored record object (`old.clear(); old.update(**row)`). -/
def inplaceStep (env : Env) (row : TxRecord) (st : HState) : HState :=
  let st1 := update_item env row.txid (env.get_tx_height row.txid) st
  let st2 := if env.show_history then update_fiat env row.txid row st1 else st1
  let balance_str := env.format_amount row.balance false true
  let setBalance := fun items => modifyAt (fun it => { it with text := balance_str }) items 4
  let st3 := { st2 with txid_to_items := modifyVal row.txid setBalance st2.txid_to_items }
  { st3 with transactions := modifyVal row.txid (fun _ => row) st3.transactions }

/-- The reconciliation walk of `update` (lines 459-476), threading the
`seen` set: a hash not yet displayed is appended to the mapping
(`d[txid] = row; move_to_end`) and gets a fresh row via `insert_tx`; an
unchanged record is skipped; a changed record is updated in place. -/
def walkLoop (env : Env) : List TxRecord → HState → List String → HState × List String
  | [], st, seen => (st, seen)
  | row :: rest, st, seen =>
    match lookupKey row.txid st.transactions with
    | none => walkLoop env rest (freshStep env row st) (row.txid :: seen)
    | some old =>
      if old = row then walkLoop env rest st (row.txid :: seen)
      else walkLoop env rest (inplaceStep env row st) (row.txid :: seen)

/-- The removal pass of `update` (lines 478-487): walk the snapshot
`list(enumerate(self.transactions.keys()))`; every key not in `seen` is
deleted from both dicts and its model row is taken out at
`idx - removed`.  (The code also asserts that the taken row carries the
deleted hash; the row-alignment invariant proved below shows the
assertion holds.) -/
def removeLoop (seen : List String) : List (Nat × String) → Nat → HState → HState
  | [], _, st => st
  | (idx, txid) :: rest, removed, st =>
    if txid ∈ seen then removeLoop seen rest removed st
    else removeLoop seen rest (removed + 1)
      { transactions := eraseKey txid st.transactions,
        txid_to_items := eraseKey txid st.txid_to_items,
        model_rows := st.model_rows.eraseIdx (idx - removed) }

/-- The full reconciliation (walk then removal) of `update`. -/
def fullReconcile (env : Env) (st : HState) (rs : List TxRecord) : HState :=
  let p := walkLoop env rs st []
  removeLoop p.2 (enumFromK 0 (keyList p.1.transactions)) 0 p.1

/-- `update` (lines 436-487) on an already fetched list.  The fetch
itself (`wallet.get_full_history`) is the external input `fetched`;
`limit_confirmations` is applied to it first.  Then: (a) identical list —
return unchanged; (b) the new list is the old list plus one trailing
entry whose hash is new — fast path, a single `insert_tx`; otherwise
(including the "tx added but txid is already in list (weird)" fall
through) the full walk plus removal pass. -/
def update (env : Env) (st : HState) (fetched : List TxRecord) : HState :=
  if limit_confirmations fetched = st.transactions.map Prod.snd then st
  else if (limit_confirmations fetched).dropLast = st.transactions.map Prod.snd then
    match (limit_confirmations fetched).getLast? with
    | some row =>
      if lookupKey row.txid st.transactions = none then freshStep env row st
      else fullReconcile env st (limit_confirmations fetched)
    | none => fullReconcile env st (limit_confirmations fetched)
  else fullReconcile env st (limit_confirmations fetched)

/-- The part of `__init__` (lines 114-166) that builds the three state
components: start from empty dicts, cap confirmations, feed the fetched
records into the `OrderedDict` (`dict.update` = repeated assignment,
first occurrence keeps its position, last value wins), then `insert_tx`
every stored record in mapping order.  (Toolbar, headers, summary and
year-combo set-up touch none of these components.) -/
def initState (env : Env) (fetched : List TxRecord) : HState :=
  let txs := (limit_confirmations fetched).foldl (fun acc x => setKey x.txid x acc) []
  txs.foldl (fun s p => insert_tx env p.2 s)
    { transactions := txs, txid_to_items := [], model_rows := [] }

end HistoryList

theorem lookupKey_setKey_self {α : Type} (k : String) (v : α) (l : List (String × α)) :
    lookupKey k (setKey k v l) = some v := by
  induction l with
  | nil => simp [setKey, lookupKey_cons]
  | cons p t ih =>
    obtain ⟨k₀, v₀⟩ := p
    by_cases h0 : k₀ = k
    · subst h0
      simp [setKey, lookupKey_cons]
    · simp [setKey, h0, lookupKey_cons, ih]

theorem lookupKey_setKey_ne {α : Type} (k k' : String) (v : α) (l : List (String × α))
    (h : k' ≠ k) : lookupKey k' (setKey k v l) = lookupKey k' l := by
  induction l with
  | nil =>
    have hne : ¬ k = k' := fun hh => h hh.symm
    simp [setKey, lookupKey_cons, hne]
  | cons p t ih =>
    obtain ⟨k₀, v₀⟩ := p
    by_cases h0 : k₀ = k
    · subst h0
      have hne : ¬ k₀ = k' := fun hh => h hh.symm
      simp [setKey, lookupKey_cons, hne]
    · simp [setKey, h0, lookupKey_cons, ih]

namespace HistoryList

/-! ### Frame lemmas for the per-row operations -/

theorem update_item_transactions (env : Env) (tx_hash : String) (tms : TxMinedStatus)
    (st : HState) : (update_item env tx_hash tms st).transactions = st.transactions := by
  unfold update_item
  cases hl : lookupKey tx_hash st.txid_to_items <;> simp [hl]

theorem update_item_model_rows (env : Env) (tx_hash : String) (tms : TxMinedStatus)
    (st : HState) : (update_item env tx_hash tms st).model_rows = st.model_rows := by
  unfold update_item
  cases hl : lookupKey tx_hash st.txid_to_items <;> simp [hl]

theorem update_item_items_keys (env : Env) (tx_hash : String) (tms : TxMinedStatus)
    (st : HState) :
    keyList (update_item env tx_hash tms st).txid_to_items = keyList st.txid_to_items := by
  unfold update_item
  cases hl : lookupKey tx_hash st.txid_to_items <;> simp [hl]

theorem update_item_items_ne (env : Env) (tx_hash : String) (tms : TxMinedStatus)
    (st : HState) (t : String) (h : t ≠ tx_hash) :
    lookupKey t (update_item env tx_hash tms st).txid_to_items
      = lookupKey t st.txid_to_items := by
  unfold update_item
  cases hl : lookupKey tx_hash st.txid_to_items <;>
    simp [hl, lookupKey_modifyVal_ne _ _ _ _ h]

theorem update_fiat_transactions (env : Env) (txid : String) (row : TxRecord)
    (st : HState) : (update_fiat env txid row st).transactions = st.transactions := by
  unfold update_fiat
  cases hl : lookupKey txid st.txid_to_items <;> simp [hl]

theorem update_fiat_model_rows (env : Env) (txid : String) (row : TxRecord)
    (st : HState) : (update_fiat env txid row st).model_rows = st.model_rows := by
  unfold update_fiat
  cases hl : lookupKey txid st.txid_to_items <;> simp [hl]

theorem update_fiat_items_keys (env : Env) (txid : String) (row : TxRecord)
    (st : HState) :
    keyList (update_fiat env txid row st).txid_to_items = keyList st.txid_to_items := by
  unfold update_fiat
  cases hl : lookupKey txid st.txid_to_items <;> simp [hl]

theorem update_fiat_items_ne (env : Env) (txid : String) (row : TxRecord)
    (st : HState) (t : String) (h : t ≠ txid) :
    lookupKey t (update_fiat env txid row st).txid_to_items
      = lookupKey t st.txid_to_items := by
  unfold update_fiat
  cases hl : lookupKey txid st.txid_to_items <;>
    simp [hl, lookupKey_modifyVal_ne _ _ _ _ h]

theorem insert_tx_transactions (env : Env) (row : TxRecord) (st : HState) :
    (insert_tx env row st).transactions = st.transactions := by
  unfold insert_tx
  by_cases h : env.show_history <;>
    simp [h, update_fiat_transactions, update_item_transactions]

theorem insert_tx_model_rows (env : Env) (row : TxRecord) (st : HState) :
    (insert_tx env row st).model_rows = st.model_rows ++ [row.txid] := by
  unfold insert_tx
  by_cases h : env.show_history <;>
    simp [h, update_fiat_model_rows, update_item_model_rows]

theorem insert_tx_items_keys (env : Env) (row : TxRecord) (st : HState)
    (h : row.txid ∉ keyList st.txid_to_items) :
    keyList (insert_tx env row st).txid_to_items
      = keyList st.txid_to_items ++ [row.txid] := by
  unfold insert_tx
  by_cases hh : env.show_history <;>
    simp [hh, update_fiat_items_keys, update_item_items_keys, setKey_fresh _ _ _ h]

theorem insert_tx_items_ne (env : Env) (row : TxRecord) (st : HState) (t : String)
    (h : t ≠ row.txid) :
    lookupKey t (insert_tx env row st).txid_to_items = lookupKey t st.txid_to_items := by
  unfold insert_tx
  by_cases hh : env.show_history <;>
    simp [hh, update_fiat_items_ne _ _ _ _ _ h, update_item_items_ne _ _ _ _ _ h,
      lookupKey_setKey_ne _ _ _ _ h]

end HistoryList

namespace HistoryList

/-! ### Component lemmas for the two walk steps -/

theorem freshStep_transactions (env : Env) (row : TxRecord) (st : HState)
    (hl : lookupKey row.txid st.transactions = none) :
    (freshStep env row st).transactions = st.transactions ++ [(row.txid, row)] := by
  unfold freshStep
  rw [insert_tx_transactions]
  simp [fresh_assign_append _ _ _ ((lookupKey_eq_none _ _).mp hl)]

theorem freshStep_model_rows (env : Env) (row : TxRecord) (st : HState) :
    (freshStep env row st).model_rows = st.model_rows ++ [row.txid] := by
  unfold freshStep
  rw [insert_tx_model_rows]

theorem freshStep_items_keys (env : Env) (row : TxRecord) (st : HState)
    (h : row.txid ∉ keyList st.txid_to_items) :
    keyList (freshStep env row st).txid_to_items
      = keyList st.txid_to_items ++ [row.txid] := by
  unfold freshStep
  rw [insert_tx_items_keys env row _ (by simpa using h)]

theorem freshStep_items_ne (env : Env) (row : TxRecord) (st : HState) (t : String)
    (h : t ≠ row.txid) :
    lookupKey t (freshStep env row st).txid_to_items = lookupKey t st.txid_to_items := by
  unfold freshStep
  rw [insert_tx_items_ne env row _ t h]

theorem inplaceStep_transactions (env : Env) (row : TxRecord) (st : HState) :
    (inplaceStep env row st).transactions
      = modifyVal row.txid (fun _ => row) st.transactions := by
  unfold inplaceStep
  by_cases hs : env.show_history <;>
    simp [hs, update_fiat_transactions, update_item_transactions]

theorem inplaceStep_keys (env : Env) (row : TxRecord) (st : HState) :
    keyList (inplaceStep env row st).transactions = keyList st.transactions := by
  rw [inplaceStep_transactions, keyList_modifyVal]

theorem inplaceStep_lookup_ne (env : Env) (row : TxRecord) (st : HState) (t : String)
    (h : t ≠ row.txid) :
    lookupKey t (inplaceStep env row st).transactions
      = lookupKey t st.transactions := by
  rw [inplaceStep_transactions, lookupKey_modifyVal_ne _ _ _ _ h]

theorem inplaceStep_model_rows (env : Env) (row : TxRecord) (st : HState) :
    (inplaceStep env row st).model_rows = st.model_rows := by
  unfold inplaceStep
  by_cases hs : env.show_history <;>
    simp [hs, update_fiat_model_rows, update_item_model_rows]

theorem inplaceStep_items_keys (env : Env) (row : TxRecord) (st : HState) :
    keyList (inplaceStep env row st).txid_to_items = keyList st.txid_to_items := by
  unfold inplaceStep
  by_cases hs : env.show_history <;>
    simp [hs, keyList_modifyVal, update_fiat_items_keys, update_item_items_keys]

theorem inplaceStep_items_ne (env : Env) (row : TxRecord) (st : HState) (t : String)
    (h : t ≠ row.txid) :
    lookupKey t (inplaceStep env row st).txid_to_items
      = lookupKey t st.txid_to_items := by
  unfold inplaceStep
  by_cases hs : env.show_history <;>
    simp [hs, lookupKey_modifyVal_ne _ _ _ _ h, update_fiat_items_ne _ _ _ _ _ h,
      update_item_items_ne _ _ _ _ _ h]

/-- The structural invariant of the view (spec section 3): the mapping's
iteration order equals the model's insertion order (the `i`-th source
row carries the `i`-th key), each hash has at most one row, and the
`txid_to_items` table is keyed in step with the mapping. -/
def histInv (st : HState) : Prop :=
  st.model_rows = keyList st.transactions
  ∧ (keyList st.transactions).Nodup
  ∧ keyList st.txid_to_items = keyList st.transactions

instance (st : HState) : Decidable (histInv st) := by
  unfold histInv
  infer_instance

/-- A fresh hash keeps the invariant: both dicts and the model grow by
the same trailing entry. -/
theorem freshStep_inv (env : Env) (row : TxRecord) (st : HState)
    (hl : lookupKey row.txid st.transactions = none)
    (hinv : histInv st) : histInv (freshStep env row st) := by
  obtain ⟨hrows, hnd, hitems⟩ := hinv
  have hfresh : row.txid ∉ keyList st.transactions := (lookupKey_eq_none _ _).mp hl
  have hfreshIt : row.txid ∉ keyList st.txid_to_items := by
    rw [hitems]; exact hfresh
  refine ⟨?_, ?_, ?_⟩
  · rw [freshStep_model_rows, freshStep_transactions _ _ _ hl]
    simp [hrows]
  · rw [freshStep_transactions _ _ _ hl]
    simp [List.nodup_append, hnd, hfresh]
  · rw [freshStep_transactions _ _ _ hl, freshStep_items_keys _ _ _ hfreshIt]
    simp [hitems]

/-- An in-place record update keeps the invariant: no key or row moves. -/
theorem inplaceStep_inv (env : Env) (row : TxRecord) (st : HState)
    (hinv : histInv st) : histInv (inplaceStep env row st) := by
  obtain ⟨hrows, hnd, hitems⟩ := hinv
  refine ⟨?_, ?_, ?_⟩
  · rw [inplaceStep_model_rows, inplaceStep_keys]
    exact hrows
  · rw [inplaceStep_keys]
    exact hnd
  · rw [inplaceStep_items_keys, inplaceStep_keys]
    exact hitems

/-! ### The reconciliation walk -/

/-- After the walk, `seen` holds exactly the fetched hashes (plus
whatever it started with). -/
theorem walkLoop_seen (env : Env) (rs : List TxRecord) :
    ∀ (st : HState) (seen : List String) (t : String),
      t ∈ (walkLoop env rs st seen).2 ↔ t ∈ rs.map TxRecord.txid ∨ t ∈ seen := by
  induction rs with
  | nil =>
    intro st seen t
    simp [walkLoop]
  | cons row rest ih =>
    intro st seen t
    cases hl : lookupKey row.txid st.transactions with
    | none =>
      simp only [walkLoop, hl, ih, List.map_cons, List.mem_cons]
      tauto
    | some old =>
      by_cases he : old = row
      · simp only [walkLoop, hl, if_pos he, ih, List.map_cons, List.mem_cons]
        tauto
      · simp only [walkLoop, hl, if_neg he, ih, List.map_cons, List.mem_cons]
        tauto

/-- After the walk, the mapping's keys are the old keys plus the fetched
hashes. -/
theorem walkLoop_keys_mem (env : Env) (rs : List TxRecord) :
    ∀ (st : HState) (seen : List String) (t : String),
      t ∈ keyList (walkLoop env rs st seen).1.transactions
        ↔ t ∈ keyList st.transactions ∨ t ∈ rs.map TxRecord.txid := by
  induction rs with
  | nil =>
    intro st seen t
    simp [walkLoop]
  | cons row rest ih =>
    intro st seen t
    cases hl : lookupKey row.txid st.transactions with
    | none =>
      simp only [walkLoop, hl, ih, freshStep_transactions _ _ _ hl, keyList_append,
        keyList_cons, keyList_nil, List.mem_append, List.mem_cons, List.mem_singleton,
        List.map_cons, List.not_mem_nil]
      tauto
    | some old =>
      have hmem : row.txid ∈ keyList st.transactions := by
        by_contra hc
        rw [← lookupKey_eq_none] at hc
        simp [hl] at hc
      by_cases he : old = row
      · simp only [walkLoop, hl, if_pos he, ih, List.map_cons, List.mem_cons]
        constructor
        · tauto
        · rintro (h | rfl | h)
          · exact Or.inl h
          · exact Or.inl hmem
          · exact Or.inr h
      · simp only [walkLoop, hl, if_neg he, ih, inplaceStep_keys, List.map_cons,
          List.mem_cons]
        constructor
        · tauto
        · rintro (h | rfl | h)
          · exact Or.inl h
          · exact Or.inl hmem
          · exact Or.inr h

/-- The walk preserves the structural invariant. -/
theorem walkLoop_inv (env : Env) (rs : List TxRecord) :
    ∀ (st : HState) (seen : List String),
      histInv st → histInv (walkLoop env rs st seen).1 := by
  induction rs with
  | nil =>
    intro st seen h
    simpa [walkLoop] using h
  | cons row rest ih =>
    intro st seen hinv
    cases hl : lookupKey row.txid st.transactions with
    | none =>
      simp only [walkLoop, hl]
      exact ih _ _ (freshStep_inv env row st hl hinv)
    | some old =>
      by_cases he : old = row
      · simp only [walkLoop, hl, if_pos he]
        exact ih _ _ hinv
      · simp only [walkLoop, hl, if_neg he]
        exact ih _ _ (inplaceStep_inv env row st hinv)

/-- Rows whose record matches every fetched occurrence of their hash are
left untouched by the walk: the stored record stays, and the hash's item
list (its row's cells) is not modified. -/
theorem walkLoop_frame (env : Env) (txid : String) (rec : TxRecord) (rs : List TxRecord) :
    ∀ (st : HState) (seen : List String),
      lookupKey txid st.transactions = some rec →
      (∀ row ∈ rs, row.txid = txid → row = rec) →
      lookupKey txid (walkLoop env rs st seen).1.transactions = some rec
      ∧ lookupKey txid (walkLoop env rs st seen).1.txid_to_items
          = lookupKey txid st.txid_to_items := by
  induction rs with
  | nil =>
    intro st seen h1 _
    exact ⟨by simpa [walkLoop] using h1, by simp [walkLoop]⟩
  | cons row rest ih =>
    intro st seen h1 h2
    have h2' : ∀ r ∈ rest, r.txid = txid → r = rec :=
      fun r hr hh => h2 r (List.mem_cons_of_mem _ hr) hh
    by_cases heq : row.txid = txid
    · have hrr : row = rec := h2 row (List.mem_cons_self _ _) heq
      have hl : lookupKey row.txid st.transactions = some rec := by
        rw [heq]; exact h1
      simp only [walkLoop, hl, if_pos hrr.symm]
      exact ih st _ h1 h2'
    · have hne : txid ≠ row.txid := fun hh => heq hh.symm
      cases hl : lookupKey row.txid st.transactions with
      | none =>
        simp only [walkLoop, hl]
        have h1' : lookupKey txid (freshStep env row st).transactions = some rec := by
          rw [freshStep_transactions _ _ _ hl]
          exact lookupKey_append_left txid _ _ rec h1
        obtain ⟨ha, hb⟩ := ih _ _ h1' h2'
        exact ⟨ha, hb.trans (freshStep_items_ne env row st txid hne)⟩
      | some old =>
        by_cases he : old = row
        · simp only [walkLoop, hl, if_pos he]
          exact ih st _ h1 h2'
        · simp only [walkLoop, hl, if_neg he]
          have h1' : lookupKey txid (inplaceStep env row st).transactions = some rec := by
            rw [inplaceStep_lookup_ne env row st txid hne]
            exact h1
          obtain ⟨ha, hb⟩ := ih _ _ h1' h2'
          exact ⟨ha, hb.trans (inplaceStep_items_ne env row st txid hne)⟩

end HistoryList

theorem keyList_filter {α : Type} (c : String → Bool) (l : List (String × α)) :
    keyList (l.filter (fun p => c p.1)) = (keyList l).filter c := by
  induction l with
  | nil => rfl
  | cons p t ih =>
    obtain ⟨k, v⟩ := p
    by_cases h : c k <;> simp [List.filter_cons, h, ih]

theorem eraseIdx_append_len {α : Type} (l₁ : List α) (a : α) (l₂ : List α) :
    (l₁ ++ a :: l₂).eraseIdx l₁.length = l₁ ++ l₂ := by
  induction l₁ with
  | nil => rfl
  | cons x t ih => simp [List.eraseIdx, ih]

namespace HistoryList

/-- The removal pass never touches the items of a hash that was seen. -/
theorem removeLoop_frame (seen : List String) (txid : String) (h : txid ∈ seen) :
    ∀ (pairs : List (Nat × String)) (removed : Nat) (st : HState),
      lookupKey txid (removeLoop seen pairs removed st).txid_to_items
        = lookupKey txid st.txid_to_items := by
  intro pairs
  induction pairs with
  | nil =>
    intro removed st
    simp [removeLoop]
  | cons p rest ih =>
    obtain ⟨idx, k⟩ := p
    intro removed st
    by_cases hk : k ∈ seen
    · simp [removeLoop, hk, ih]
    · have hne : txid ≠ k := fun hh => hk (hh ▸ h)
      simp [removeLoop, hk, ih, lookupKey_eraseKey_ne _ _ _ hne]

/-- Full characterisation of the removal pass on an aligned state: the
processed prefix `kept` has already been filtered, the snapshot suffix
`ts2` is enumerated starting at index `k`, and the pass filters both
dicts and the row list by membership in `seen`.  The index arithmetic
`idx - removed` always hits the row of the key being deleted, which is
also why the `assert removed_txid == txid` in the source holds. -/
theorem removeLoop_spec (seen : List String) :
    ∀ (ts2 kept : List (String × TxRecord))
      (its2 itsKept : List (String × List QtItem)) (removed k : Nat),
      k = removed + kept.length →
      (keyList kept ++ keyList ts2).Nodup →
      keyList its2 = keyList ts2 →
      keyList itsKept = keyList kept →
      removeLoop seen (enumFromK k (keyList ts2)) removed
        ⟨kept ++ ts2, itsKept ++ its2, keyList kept ++ keyList ts2⟩
      = ⟨kept ++ ts2.filter (fun p => decide (p.1 ∈ seen)),
         itsKept ++ its2.filter (fun p => decide (p.1 ∈ seen)),
         keyList kept ++ (keyList ts2).filter (fun t => decide (t ∈ seen))⟩ := by
  intro ts2
  induction ts2 with
  | nil =>
    intro kept its2 itsKept removed k hk hnd h2 h3
    have h2' : its2 = [] := by
      cases its2 with
      | nil => rfl
      | cons q l => simp [keyList] at h2
    subst h2'
    simp [removeLoop, enumFromK]
  | cons p rest ih =>
    obtain ⟨t, rc⟩ := p
    intro kept its2 itsKept removed k hk hnd h2 h3
    cases its2 with
    | nil => simp [keyList] at h2
    | cons q restIts =>
      obtain ⟨tq, itemsq⟩ := q
      simp only [keyList_cons] at h2
      injection h2 with htq h2'
      subst tq
      have hndk : (keyList kept).Nodup ∧ (t :: keyList rest).Nodup
          ∧ (keyList kept).Disjoint (t :: keyList rest) := by
        simpa [List.nodup_append] using hnd
      have htk : t ∉ keyList kept :=
        fun hc => hndk.2.2 hc (List.mem_cons_self _ _)
      by_cases hts : t ∈ seen
      · -- the key is kept; shift it into the processed prefix
        simp only [keyList_cons, enumFromK, removeLoop, if_pos hts]
        have hrw1 : kept ++ (t, rc) :: rest = (kept ++ [(t, rc)]) ++ rest := by
          simp
        have hrw2 : itsKept ++ (t, itemsq) :: restIts
            = (itsKept ++ [(t, itemsq)]) ++ restIts := by
          simp
        have hrw3 : keyList kept ++ t :: keyList rest
            = keyList (kept ++ [(t, rc)]) ++ keyList rest := by
          simp
        have hk' : k + 1 = removed + (kept ++ [(t, rc)]).length := by
          simp only [List.length_append, List.length_singleton]
          omega
        have hnd' : (keyList (kept ++ [(t, rc)]) ++ keyList rest).Nodup := by
          rw [← hrw3]
          exact hnd
        have h3' : keyList (itsKept ++ [(t, itemsq)]) = keyList (kept ++ [(t, rc)]) := by
          simp [h3]
        have hih := ih (kept ++ [(t, rc)]) restIts (itsKept ++ [(t, itemsq)])
          removed (k + 1) hk' hnd' h2' h3'
        have hmap : List.map Prod.fst rest = keyList rest := rfl
        rw [hrw1, hrw2, hrw3, hmap, hih]
        simp [List.filter_cons, hts]
      · -- the key is deleted from both dicts and the model
        simp only [keyList_cons, enumFromK, removeLoop, if_neg hts]
        have htkIt : t ∉ keyList itsKept := by
          rw [h3]; exact htk
        have herase1 : eraseKey t (kept ++ (t, rc) :: rest) = kept ++ rest :=
          eraseKey_append_fresh t rc kept rest htk
        have herase2 : eraseKey t (itsKept ++ (t, itemsq) :: restIts)
            = itsKept ++ restIts :=
          eraseKey_append_fresh t itemsq itsKept restIts htkIt
        have hidx : k - removed = (keyList kept).length := by
          simp only [keyList, List.length_map]
          omega
        have herase3 : (keyList kept ++ t :: keyList rest).eraseIdx (k - removed)
            = keyList kept ++ keyList rest := by
          rw [hidx]
          exact eraseIdx_append_len _ _ _
        have hk' : k + 1 = (removed + 1) + kept.length := by omega
        have hnd' : (keyList kept ++ keyList rest).Nodup := by
          refine List.nodup_append.mpr ⟨hndk.1, ?_, ?_⟩
          · exact hndk.2.1.of_cons
          · exact fun a ha hb => hndk.2.2 ha (List.mem_cons_of_mem _ hb)
        have hih := ih kept restIts itsKept (removed + 1) (k + 1) hk' hnd' h2' h3
        simp only [herase1, herase2, herase3]
        have hmap : List.map Prod.fst rest = keyList rest := rfl
        rw [hmap, hih]
        simp [List.filter_cons, hts]

end HistoryList

namespace HistoryList

/-- The removal pass on a state satisfying the invariant filters all
three components by membership in `seen`. -/
theorem removeLoop_full_state (seen : List String) (st : HState)
    (hrows : st.model_rows = keyList st.transactions)
    (hnd : (keyList st.transactions).Nodup)
    (hits : keyList st.txid_to_items = keyList st.transactions) :
    removeLoop seen (enumFromK 0 (keyList st.transactions)) 0 st
      = ⟨st.transactions.filter (fun p => decide (p.1 ∈ seen)),
         st.txid_to_items.filter (fun p => decide (p.1 ∈ seen)),
         (keyList st.transactions).filter (fun t => decide (t ∈ seen))⟩ := by
  obtain ⟨ts, its, rows⟩ := st
  dsimp only at hrows hnd hits ⊢
  subst hrows
  have h := removeLoop_spec seen ts [] its [] 0 0 (by simp) (by simpa using hnd)
    hits (by simp)
  simpa using h

/-- `keyList_filter` at the membership predicate the removal pass uses. -/
theorem keyList_filter_seen {α : Type} (seen : List String) (l : List (String × α)) :
    keyList (l.filter (fun p => decide (p.1 ∈ seen)))
      = (keyList l).filter (fun t => decide (t ∈ seen)) := by
  induction l with
  | nil => rfl
  | cons p t ih =>
    obtain ⟨k, v⟩ := p
    by_cases h : k ∈ seen <;> simp [List.filter_cons, h, ih]

/-- The full reconciliation preserves the structural invariant. -/
theorem fullReconcile_inv (env : Env) (st : HState) (rs : List TxRecord)
    (h : histInv st) : histInv (fullReconcile env st rs) := by
  obtain ⟨hrows, hnd, hitems⟩ := walkLoop_inv env rs st [] h
  simp only [fullReconcile]
  rw [removeLoop_full_state _ _ hrows hnd hitems]
  unfold histInv
  dsimp only
  refine ⟨?_, ?_, ?_⟩
  · rw [keyList_filter_seen]
  · rw [keyList_filter_seen]
    exact List.Nodup.filter _ hnd
  · rw [keyList_filter_seen, keyList_filter_seen, hitems]

/-- After the full reconciliation, the displayed hashes are exactly the
fetched ones. -/
theorem fullReconcile_keys_mem (env : Env) (st : HState) (rs : List TxRecord)
    (h : histInv st) (t : String) :
    t ∈ keyList (fullReconcile env st rs).transactions ↔ t ∈ rs.map TxRecord.txid := by
  obtain ⟨hrows, hnd, hitems⟩ := walkLoop_inv env rs st [] h
  simp only [fullReconcile]
  rw [removeLoop_full_state _ _ hrows hnd hitems]
  have hw := walkLoop_keys_mem env rs st [] t
  have hs := walkLoop_seen env rs st [] t
  dsimp only
  rw [keyList_filter_seen]
  simp only [List.mem_filter, decide_eq_true_eq]
  rw [hw, hs]
  simp only [List.not_mem_nil, or_false]
  tauto

/-- The full reconciliation leaves the item list of an unchanged,
still-present hash untouched. -/
theorem fullReconcile_frame (env : Env) (st : HState) (rs : List TxRecord)
    (txid : String) (rc : TxRecord)
    (hlook : lookupKey txid st.transactions = some rc)
    (hall : ∀ row ∈ rs, row.txid = txid → row = rc)
    (hin : txid ∈ rs.map TxRecord.txid) :
    lookupKey txid (fullReconcile env st rs).txid_to_items
      = lookupKey txid st.txid_to_items := by
  simp only [fullReconcile]
  have hseen : txid ∈ (walkLoop env rs st []).2 := by
    rw [walkLoop_seen]
    exact Or.inl hin
  rw [removeLoop_frame _ _ hseen]
  exact (walkLoop_frame env txid rc rs st [] hlook hall).2

/-! ### Unfolding `update` along its three paths -/

theorem update_eq_self (env : Env) (st : HState) (fetched : List TxRecord)
    (h : limit_confirmations fetched = st.transactions.map Prod.snd) :
    update env st fetched = st := by
  unfold update
  rw [if_pos h]

theorem update_eq_fast (env : Env) (st : HState) (fetched : List TxRecord)
    (row : TxRecord)
    (h1 : limit_confirmations fetched ≠ st.transactions.map Prod.snd)
    (h2 : (limit_confirmations fetched).dropLast = st.transactions.map Prod.snd)
    (hlast : (limit_confirmations fetched).getLast? = some row)
    (hfresh : lookupKey row.txid st.transactions = none) :
    update env st fetched = freshStep env row st := by
  unfold update
  rw [if_neg h1, if_pos h2]
  simp only [hlast]
  rw [if_pos hfresh]

theorem update_eq_full (env : Env) (st : HState) (fetched : List TxRecord)
    (h1 : limit_confirmations fetched ≠ st.transactions.map Prod.snd)
    (h2 : (limit_confirmations fetched).dropLast ≠ st.transactions.map Prod.snd) :
    update env st fetched = fullReconcile env st (limit_confirmations fetched) := by
  unfold update
  rw [if_neg h1, if_neg h2]

end HistoryList

theorem keyList_setKey {α : Type} (k : String) (v : α) (l : List (String × α)) :
    keyList (setKey k v l)
      = if k ∈ keyList l then keyList l else keyList l ++ [k] := by
  induction l with
  | nil => simp [setKey]
  | cons p t ih =>
    obtain ⟨k₀, v₀⟩ := p
    by_cases h0 : k₀ = k
    · subst h0
      simp [setKey]
    · have h0' : ¬ k = k₀ := fun hh => h0 hh.symm
      by_cases hm : k ∈ keyList t <;> simp [setKey, h0, h0', hm, ih]

theorem mem_setKey {α : Type} (k : String) (v : α) (l : List (String × α))
    (p : String × α) (h : p ∈ setKey k v l) : p = (k, v) ∨ p ∈ l := by
  induction l with
  | nil => simpa [setKey] using h
  | cons q t ih =>
    obtain ⟨k₀, v₀⟩ := q
    by_cases h0 : k₀ = k
    · subst h0
      rcases (by simpa [setKey] using h : p = (k₀, v) ∨ p ∈ t) with h1 | h1
      · exact Or.inl h1
      · exact Or.inr (List.mem_cons_of_mem _ h1)
    · rcases (by simpa [setKey, h0] using h : p = (k₀, v₀) ∨ p ∈ setKey k v t) with h1 | h1
      · exact Or.inr (by simp [h1])
      · rcases ih h1 with h2 | h2
        · exact Or.inl h2
        · exact Or.inr (List.mem_cons_of_mem _ h2)

namespace HistoryList

/-- Feeding records into the `OrderedDict` keeps the keys duplicate-free. -/
theorem dictFold_nodup (rs : List TxRecord) :
    ∀ (acc : List (String × TxRecord)), (keyList acc).Nodup →
      (keyList (rs.foldl (fun a x => setKey x.txid x a) acc)).Nodup := by
  induction rs with
  | nil =>
    intro acc h
    simpa using h
  | cons x rest ih =>
    intro acc h
    simp only [List.foldl_cons]
    refine ih _ ?_
    rw [keyList_setKey]
    by_cases hm : x.txid ∈ keyList acc
    · simpa [hm] using h
    · simp only [hm, if_false]
      simp [List.nodup_append, h, hm]

/-- Every binding made by the `OrderedDict` feed maps a record's own
txid to that record. -/
theorem dictFold_coherent (rs : List TxRecord) :
    ∀ (acc : List (String × TxRecord)), (∀ p ∈ acc, p.2.txid = p.1) →
      ∀ p ∈ rs.foldl (fun a x => setKey x.txid x a) acc, p.2.txid = p.1 := by
  induction rs with
  | nil =>
    intro acc h
    simpa using h
  | cons x rest ih =>
    intro acc h
    simp only [List.foldl_cons]
    refine ih _ ?_
    intro p hp
    rcases mem_setKey _ _ _ _ hp with h1 | h1
    · rw [h1]
    · exact h p h1

/-- Inserting a coherent, duplicate-free batch of records row by row
appends exactly their keys to the model and the items table, and leaves
the mapping alone. -/
theorem foldl_insert_tx (env : Env) :
    ∀ (pairs : List (String × TxRecord)) (st : HState),
      (∀ p ∈ pairs, p.2.txid = p.1) →
      (keyList st.txid_to_items ++ keyList pairs).Nodup →
      st.model_rows = keyList st.txid_to_items →
      (pairs.foldl (fun s p => insert_tx env p.2 s) st).transactions = st.transactions
      ∧ (pairs.foldl (fun s p => insert_tx env p.2 s) st).model_rows
          = st.model_rows ++ keyList pairs
      ∧ keyList (pairs.foldl (fun s p => insert_tx env p.2 s) st).txid_to_items
          = keyList st.txid_to_items ++ keyList pairs := by
  intro pairs
  induction pairs with
  | nil =>
    intro st _ _ _
    simp
  | cons q rest ih =>
    obtain ⟨k, v⟩ := q
    intro st hco hnd hrows
    have hvk : v.txid = k := hco (k, v) (List.mem_cons_self _ _)
    have hfresh : v.txid ∉ keyList st.txid_to_items := by
      rw [hvk]
      intro hc
      rcases List.nodup_append.mp hnd with ⟨_, _, hdisj⟩
      exact hdisj hc (by simp)
    have hkeys2 := insert_tx_items_keys env v st hfresh
    have hrows2 : (insert_tx env v st).model_rows = st.model_rows ++ [k] := by
      rw [insert_tx_model_rows, hvk]
    have hnd2 : (keyList (insert_tx env v st).txid_to_items ++ keyList rest).Nodup := by
      rw [hkeys2, hvk]
      simp only [keyList_cons] at hnd
      rw [List.append_cons] at hnd
      exact hnd
    have hrows2' : (insert_tx env v st).model_rows
        = keyList (insert_tx env v st).txid_to_items := by
      rw [hrows2, hkeys2, hrows, hvk]
    have hco2 : ∀ p ∈ rest, p.2.txid = p.1 :=
      fun p hp => hco p (List.mem_cons_of_mem _ hp)
    obtain ⟨ha, hb, hc⟩ := ih (insert_tx env v st) hco2 hnd2 hrows2'
    simp only [List.foldl_cons]
    refine ⟨?_, ?_, ?_⟩
    · rw [ha, insert_tx_transactions]
    · rw [hb, hrows2]
      simp
    · rw [hc, hkeys2, hvk]
      simp

/-- Construction establishes the structural invariant. -/
theorem initState_inv (env : Env) (fetched : List TxRecord) :
    histInv (initState env fetched) := by
  unfold initState
  have hnd : (keyList ((limit_confirmations fetched).foldl
      (fun acc x => setKey x.txid x acc) [])).Nodup :=
    dictFold_nodup _ [] (by simp)
  have hco : ∀ p ∈ (limit_confirmations fetched).foldl
      (fun acc x => setKey x.txid x acc) [], p.2.txid = p.1 :=
    dictFold_coherent _ [] (by simp)
  obtain ⟨ha, hb, hc⟩ := foldl_insert_tx env
    ((limit_confirmations fetched).foldl (fun acc x => setKey x.txid x acc) [])
    ⟨(limit_confirmations fetched).foldl (fun acc x => setKey x.txid x acc) [], [], []⟩
    hco (by simpa using hnd) (by simp)
  refine ⟨?_, ?_, ?_⟩
  · rw [hb, ha]
    simp
  · rw [ha]
    exact hnd
  · rw [hc, ha]
    simp

end HistoryList

/-! ### Python string membership (`needle in haystack`) -/

/-- `needle` is a leading segment of `hay`. -/
def leadSeg : List Char → List Char → Bool
  | [], _ => true
  | _ :: _, [] => false
  | a :: as, b :: bs => a == b && leadSeg as bs

/-- `needle` occurs somewhere in `hay`. -/
def charsOccur (needle : List Char) : List Char → Bool
  | [] => needle.isEmpty
  | b :: bs => leadSeg needle (b :: bs) || charsOccur needle bs

/-- Python's `needle in hay` for strings. -/
def strOccurs (needle hay : String) : Bool := charsOccur needle.data hay.data

/-- Python's `str.lower()`, character by character. -/
def strToLower (s : String) : String := String.mk (s.data.map Char.toLower)

namespace HistoryList

/-- `hide_row` (lines 81-98), as the per-row decision it computes:
the result is the hidden flag the code leaves on the row.  The row is
given by its cells (cell texts for the filter columns and the
`TX_HASH_ROLE` of column 0) plus the transactions mapping for the date
lookup; `current_filter` is the string stored by `filter()` (already
lower-cased there, line 101).  Structure of the source: the `for`
loop over the filter columns shows the row and breaks on a match; its
`else` clause runs the date-range check, hides when the date falls
outside the range, and otherwise shows the row.  (A missing mapping
entry would be a `KeyError`; under the key invariant it cannot happen,
and it is embedded as the no-date case.) -/
def hide_row (current_filter : String) (start_timestamp end_timestamp : Option Nat)
    (row : List QtItem) (transactions : List (String × TxRecord)) : Bool :=
  let cols := if current_filter = "" then [] else filter_columns
  if cols.any (fun column =>
      strOccurs current_filter (strToLower (row.getD column blankItem).text)) then
    false
  else
    match start_timestamp, end_timestamp with
    | some s, some e =>
      let txid := (row.getD 0 blankItem).txHashRole
      (match lookupKey txid transactions with
       | none => false
       | some r =>
         match r.date with
         | some d => if ¬ (s ≤ d ∧ d ≤ e) then true else false
         | none => false)
    | _, _ => false

/-- Claim C6's visibility predicate, following the spec's words: the row
is visible iff it passes the free-text predicate (vacuous when the
filter string is empty, otherwise the filter occurs in some filter
column's lower-cased text) AND the date-range predicate (vacuous unless
both endpoints are set and the row has a date, otherwise the date lies
in the closed range). -/
def spec_visible (current_filter : String) (start_timestamp end_timestamp : Option Nat)
    (row : List QtItem) (transactions : List (String × TxRecord)) : Bool :=
  let textOk := decide (current_filter = "") ||
    filter_columns.any (fun column =>
      strOccurs current_filter (strToLower (row.getD column blankItem).text))
  let dateOk :=
    match start_timestamp, end_timestamp with
    | some s, some e =>
      (match lookupKey ((row.getD 0 blankItem).txHashRole) transactions with
       | some r =>
         match r.date with
         | some d => decide (s ≤ d ∧ d ≤ e)
         | none => true
       | none => true)
    | _, _ => true
  textOk && dateOk

/-! ### CSV / JSON export -/

/-- A cell written by the CSV/JSON export, keeping the Python value's
type: a string, the `confirmations` int, a `Satoshis` amount, an
optional amount (absent prints as `dict.get`'s `''` default, a stored
`None` prints empty as well), or the optional date. -/
inductive CsvCell where
  | s (v : String)
  | n (v : Nat)
  | i (v : Int)
  | oi (v : Option Int)
  | od (v : Option Nat)
deriving DecidableEq, Repr

/-- What `do_export_history` writes: CSV rows or the `json_encode` dump
of the record list. -/
inductive ExportOut where
  | csv (rows : List (List CsvCell))
  | js (records : List TxRecord)
deriving DecidableEq, Repr

/-- One data line of `do_export_history` (lines 660-668): txid, label
(`.get('label','')`; the wallet always attaches a label), confirmations,
value, fiat value, fee, fiat fee, date. -/
def csv_line (item : TxRecord) : List CsvCell :=
  [CsvCell.s item.txid, CsvCell.s item.label, CsvCell.n item.confirmations,
   CsvCell.i item.value, CsvCell.oi item.fiat_value, CsvCell.oi item.fee,
   CsvCell.oi item.fiat_fee, CsvCell.od item.date]

/-- The header row written at lines 673-680. -/
def csv_header : List CsvCell :=
  [CsvCell.s "transaction_hash", CsvCell.s "label", CsvCell.s "confirmations",
   CsvCell.s "value", CsvCell.s "fiat_value", CsvCell.s "fee", CsvCell.s "fiat_fee",
   CsvCell.s "timestamp"]

/-- The `lines` accumulation loop (lines 659-668). -/
def build_lines : List TxRecord → List (List CsvCell) → List (List CsvCell)
  | [], acc => acc
  | item :: rest, acc => build_lines rest (acc ++ [csv_line item])

/-- `do_export_history` (lines 656-685): iterate
`self.transactions.values()`; in CSV mode write the header row then the
accumulated lines, otherwise write `json_encode(history)`. -/
def do_export_history (transactions : List (String × TxRecord)) (is_csv : Bool) : ExportOut :=
  let history := transactions.map Prod.snd
  if is_csv then ExportOut.csv (csv_header :: build_lines history [])
  else ExportOut.js history

/-! ### Error handling of export and import -/

/-- The Python exceptions relevant here: `IOError` and `os.error` (both
caught at line 650; `IOError` alone at line 627) and any other
exception, which these handlers do not catch. -/
inductive PyExc where
  | ioErr (msg : String)
  | osErr (msg : String)
  | otherErr (msg : String)
deriving DecidableEq, Repr

/-- The user-facing dialogs the handlers can pop up: `show_critical`,
`show_message`, `show_error`. -/
inductive UserDialog where
  | critical (title msg : String)
  | message (msg : String)
  | errorDialog (msg : String)
deriving DecidableEq, Repr

/-- `export_history_dialog` (lines 630-654) after the modal dialog ran:
`accepted` is `d.exec_()`, `filename` is `filename_e.text()`, and
`writeResult` is the outcome of `do_export_history`'s file write.  The
result collects the dialogs shown; an uncaught exception propagates as
`Except.error`.  `IOError` and `os.error` are caught and surfaced via
`show_critical`; success is reported via `show_message`. -/
def export_history_dialog (accepted : Bool) (filename : String)
    (writeResult : Except PyExc Unit) : Except PyExc (List UserDialog) :=
  if !accepted then Except.ok []
  else if filename = "" then Except.ok []
  else
    match writeResult with
    | Except.ok _ =>
        Except.ok [UserDialog.message "Your wallet history has been successfully exported."]
    | Except.error (PyExc.ioErr m) =>
        Except.ok [UserDialog.critical "Unable to export history"
          ("Electrum was unable to produce a transaction export." ++ "\n" ++ m)]
    | Except.error (PyExc.osErr m) =>
        Except.ok [UserDialog.critical "Unable to export history"
          ("Electrum was unable to produce a transaction export." ++ "\n" ++ m)]
    | Except.error e => Except.error e

/-- Reading the dropped `.txn` file: contents, or an `IOError`. -/
inductive FileReadResult where
  | okRead (contents : String)
  | readErr (msg : String)
deriving DecidableEq, Repr

/-- A parsed transaction (opaque here). -/
abbrev Tx := String

/-- Modelled from the spec: `main_window.tx_from_text` is code of this
repository that is not under `src/` (only its caller is here).  Spec
section 7 says a malformed imported transaction file is "caught and
reported the same way" (a user-facing dialog): parsing is an oracle
`parse`, and a failed parse surfaces an error dialog and yields no
transaction instead of raising. -/
def tx_from_text (parse : String → Option Tx) (txt : String) :
    Option Tx × List UserDialog :=
  match parse txt with
  | some tx => (some tx, [])
  | none => (none, [UserDialog.errorDialog "Electrum was unable to parse your transaction"])

/-- Modelled from the spec: `main_window.save_transaction_into_wallet`
is not under `src/`; the spec records no failure mode for this layer, so
it stores a parsed transaction and does nothing when there is none. -/
def save_transaction_into_wallet (wallet : List Tx) (tx : Option Tx) : List Tx :=
  match tx with
  | some t => wallet ++ [t]
  | none => wallet

/-- `onFileAdded` (lines 622-628): read the file and feed the text to
`tx_from_text` / `save_transaction_into_wallet`; an `IOError` from
`open`/`read` is caught and shown via `show_error`.  The result carries
the wallet contents and the dialogs shown; an uncaught exception would
propagate as `Except.error`. -/
def onFileAdded (parse : String → Option Tx) (wallet : List Tx)
    (readResult : FileReadResult) : Except PyExc (List Tx × List UserDialog) :=
  match readResult with
  | FileReadResult.readErr m => Except.ok (wallet, [UserDialog.errorDialog m])
  | FileReadResult.okRead contents =>
    let pr := tx_from_text parse contents
    Except.ok (save_transaction_into_wallet wallet pr.1, pr.2)

end HistoryList

/-! ### Helpers for the claim theorems -/

theorem getLast?_none_eq_nil {α : Type} : ∀ (l : List α), l.getLast? = none → l = []
  | [], _ => rfl
  | [a], h => by simp at h
  | _ :: b :: t, h => by
    rw [List.getLast?_cons_cons] at h
    exact absurd (getLast?_none_eq_nil (b :: t) h) (by simp)

namespace HistoryList

theorem limit_txid (t : TxRecord) : (limit_tx t).txid = t.txid := by
  unfold limit_tx
  split <;> rfl

theorem limit_map_txid (l : List TxRecord) :
    (limit_confirmations l).map TxRecord.txid = l.map TxRecord.txid := by
  unfold limit_confirmations
  induction l with
  | nil => rfl
  | cons x rest ih => simp [limit_txid, ih]

theorem limit_tx_eq_self (t : TxRecord) (h : t.confirmations ≤ 10) : limit_tx t = t := by
  unfold limit_tx
  split
  · next h10 =>
    have hc : t.confirmations = 10 := Nat.le_antisymm h h10
    cases t
    simp_all
  · rfl

theorem limit_eq_self : ∀ (l : List TxRecord),
    (∀ t ∈ l, t.confirmations ≤ 10) → limit_confirmations l = l := by
  intro l
  induction l with
  | nil => intro _; rfl
  | cons x rest ih =>
    intro h
    have hx := limit_tx_eq_self x (h x (List.mem_cons_self _ _))
    have hr := ih (fun t ht => h t (List.mem_cons_of_mem _ ht))
    unfold limit_confirmations at hr ⊢
    rw [List.map_cons, hx, hr]

/-- `update` preserves the structural invariant along each of its three
paths (shared by the invariant claims). -/
theorem update_inv (env : Env) (st : HState) (fetched : List TxRecord)
    (hinv : histInv st) : histInv (update env st fetched) := by
  by_cases h1 : limit_confirmations fetched = st.transactions.map Prod.snd
  · rw [update_eq_self env st fetched h1]
    exact hinv
  · by_cases h2 : (limit_confirmations fetched).dropLast = st.transactions.map Prod.snd
    · cases hlast : (limit_confirmations fetched).getLast? with
      | none =>
        exfalso
        have hnil := getLast?_none_eq_nil _ hlast
        rw [hnil] at h2
        rw [hnil] at h1
        simp only [List.dropLast_nil] at h2
        exact h1 h2
      | some row =>
        by_cases hfresh : lookupKey row.txid st.transactions = none
        · rw [update_eq_fast env st fetched row h1 h2 hlast hfresh]
          exact freshStep_inv env row st hfresh hinv
        · have hwe : update env st fetched
              = fullReconcile env st (limit_confirmations fetched) := by
            unfold update
            rw [if_neg h1, if_pos h2]
            simp only [hlast]
            rw [if_neg hfresh]
          rw [hwe]
          exact fullReconcile_inv env st _ hinv
    · rw [update_eq_full env st fetched h1 h2]
      exact fullReconcile_inv env st _ hinv

theorem build_lines_eq (l : List TxRecord) :
    ∀ (acc : List (List CsvCell)), build_lines l acc = acc ++ l.map csv_line := by
  induction l with
  | nil =>
    intro acc
    simp [build_lines]
  | cons x rest ih =>
    intro acc
    simp [build_lines, ih]

end HistoryList

/-! ### Concrete sample data for witnesses and counterexamples -/

/-- A concrete environment: constant wallet/fiat answers, fiat display
off. -/
def env0 : Env :=
  { get_tx_status := fun _ _ => (9, "ok"),
    get_tx_height := fun _ => ⟨1, 2, some 5⟩,
    format_amount := fun v _ _ => toString v,
    has_invoice := fun _ => false,
    show_history := false,
    cap_gains := false,
    format_fiat := fun v => toString v }

def recA : TxRecord :=
  { txid := "aa", height := 1, confirmations := 2, timestamp := some 100,
    value := 5, balance := 5, label := "first", date := some 10 }

/-- `recA` with a different confirmation count (same txid). -/
def recA' : TxRecord := { recA with confirmations := 3 }

def recB : TxRecord :=
  { txid := "bb", height := 2, confirmations := 1, timestamp := some 200,
    value := -3, balance := 2, label := "second", date := some 20 }

/-- `recB` with a different confirmation count (same txid). -/
def recB' : TxRecord := { recB with confirmations := 2 }

/-- A display row for the C6 checks: hash `aa`, Date text `2024-01-01`,
Description `hello`, Amount `1`, Balance `2`. -/
def rowC6 : List QtItem :=
  [{ blankItem with txHashRole := "aa" },
   { blankItem with text := "2024-01-01" },
   { blankItem with text := "hello" },
   { blankItem with text := "1" },
   { blankItem with text := "2" }]

/-! ### The claims -/

open HistoryList

/-- C1: when the freshly fetched list (confirmations capped, as the code
does first) is neither the displayed list nor the displayed list plus
one trailing entry, `update` walks the new list inserting unseen hashes
and updating changed rows in place, then removes the hashes absent from
the new list; afterwards the set of hashes held in the view (the keys
of the transactions mapping) equals the set of hashes of the fetched
list. -/
theorem C1_full_reconcile_sync (env : Env) (st : HState) (fetched : List TxRecord)
    (hinv : histInv st)
    (h1 : limit_confirmations fetched ≠ st.transactions.map Prod.snd)
    (h2 : (limit_confirmations fetched).dropLast ≠ st.transactions.map Prod.snd) :
    ∀ t, t ∈ keyList (update env st fetched).transactions
      ↔ t ∈ fetched.map TxRecord.txid := by
  intro t
  rw [update_eq_full env st fetched h1 h2]
  rw [fullReconcile_keys_mem env st _ hinv t]
  rw [limit_map_txid]

theorem C1_full_reconcile_sync_witness :
    (histInv (initState env0 [recA, recB])
      ∧ limit_confirmations [recB]
          ≠ (initState env0 [recA, recB]).transactions.map Prod.snd
      ∧ (limit_confirmations [recB]).dropLast
          ≠ (initState env0 [recA, recB]).transactions.map Prod.snd)
    ∧ (∀ t, t ∈ keyList (update env0 (initState env0 [recA, recB]) [recB]).transactions
        ↔ t ∈ [recB].map TxRecord.txid) :=
  ⟨⟨by decide, by decide, by decide⟩,
   C1_full_reconcile_sync env0 (initState env0 [recA, recB]) [recB]
     (by decide) (by decide) (by decide)⟩

/-- C2 as stated is false on the code: with displayed list `[recA]` and
fetched list `[recA, recA']` — the old list plus exactly one trailing
entry, whose txid however is already displayed — `update` takes the
"tx added but txid is already in list (weird)" fall-through into the
full walk, updates the existing row in place, and appends no row. -/
theorem C2_counterexample :
    (limit_confirmations [recA, recA']
        ≠ (initState env0 [recA]).transactions.map Prod.snd
      ∧ (limit_confirmations [recA, recA']).dropLast
          = (initState env0 [recA]).transactions.map Prod.snd)
    ∧ (update env0 (initState env0 [recA]) [recA, recA']).model_rows
        ≠ (initState env0 [recA]).model_rows ++ [recA'.txid] := by
  decide

/-- C2 (amended): if the fetched list equals the displayed list plus
exactly one trailing entry whose txid is not already displayed, `update`
takes the fast path: it appends exactly that entry to the mapping,
exactly one row to the model, exactly one binding to the items table,
and changes no other hash's items. -/
theorem C2_amended_fast_path (env : Env) (st : HState) (fetched : List TxRecord)
    (row : TxRecord)
    (hinv : histInv st)
    (h1 : limit_confirmations fetched ≠ st.transactions.map Prod.snd)
    (h2 : (limit_confirmations fetched).dropLast = st.transactions.map Prod.snd)
    (hlast : (limit_confirmations fetched).getLast? = some row)
    (hfresh : lookupKey row.txid st.transactions = none) :
    (update env st fetched).transactions = st.transactions ++ [(row.txid, row)]
    ∧ (update env st fetched).model_rows = st.model_rows ++ [row.txid]
    ∧ keyList (update env st fetched).txid_to_items
        = keyList st.txid_to_items ++ [row.txid]
    ∧ ∀ t, t ≠ row.txid →
        lookupKey t (update env st fetched).txid_to_items
          = lookupKey t st.txid_to_items := by
  have hu := update_eq_fast env st fetched row h1 h2 hlast hfresh
  have hfreshIt : row.txid ∉ keyList st.txid_to_items := by
    obtain ⟨_, _, hitems⟩ := hinv
    rw [hitems]
    exact (lookupKey_eq_none _ _).mp hfresh
  refine ⟨?_, ?_, ?_, ?_⟩
  · rw [hu, freshStep_transactions _ _ _ hfresh]
  · rw [hu, freshStep_model_rows]
  · rw [hu, freshStep_items_keys _ _ _ hfreshIt]
  · intro t ht
    rw [hu, freshStep_items_ne _ _ _ _ ht]

theorem C2_amended_fast_path_witness :
    (histInv (⟨[], [], []⟩ : HState)
      ∧ limit_confirmations [recA] ≠ (⟨[], [], []⟩ : HState).transactions.map Prod.snd
      ∧ (limit_confirmations [recA]).dropLast
          = (⟨[], [], []⟩ : HState).transactions.map Prod.snd
      ∧ (limit_confirmations [recA]).getLast? = some recA
      ∧ lookupKey recA.txid (⟨[], [], []⟩ : HState).transactions = none)
    ∧ ((update env0 ⟨[], [], []⟩ [recA]).transactions = [] ++ [(recA.txid, recA)]
      ∧ (update env0 ⟨[], [], []⟩ [recA]).model_rows = [] ++ [recA.txid]
      ∧ keyList (update env0 ⟨[], [], []⟩ [recA]).txid_to_items = [] ++ [recA.txid]
      ∧ ∀ t, t ≠ recA.txid →
          lookupKey t (update env0 ⟨[], [], []⟩ [recA]).txid_to_items
            = lookupKey t (⟨[], [], []⟩ : HState).txid_to_items) :=
  ⟨⟨by decide, by decide, by decide, by decide, by decide⟩,
   C2_amended_fast_path env0 ⟨[], [], []⟩ [recA] recA
     (by decide) (by decide) (by decide) (by decide) (by decide)⟩

/-- C3: a fetched list equal to the displayed one leaves the state
untouched — mapping, items table and model rows unchanged.  (The code
caps confirmations at 10 before comparing; every record the wallet
hands over and every displayed record satisfies the cap, stated here as
a hypothesis on the fetched list.) -/
theorem C3_unchanged_noop (env : Env) (st : HState) (fetched : List TxRecord)
    (hcap : ∀ t ∈ fetched, t.confirmations ≤ 10)
    (heq : fetched = st.transactions.map Prod.snd) :
    update env st fetched = st := by
  apply update_eq_self
  rw [limit_eq_self fetched hcap]
  exact heq

theorem C3_unchanged_noop_witness :
    ((∀ t ∈ [recA], t.confirmations ≤ 10)
      ∧ [recA] = (initState env0 [recA]).transactions.map Prod.snd)
    ∧ update env0 (initState env0 [recA]) [recA] = initState env0 [recA] :=
  ⟨⟨by decide, by decide⟩,
   C3_unchanged_noop env0 (initState env0 [recA]) [recA] (by decide) (by decide)⟩

/-- C4: the structural invariant — the mapping's iteration order equals
the model's row order (the `i`-th source row carries the `i`-th key,
which is also why `update`'s removal `assert` holds), each hash appears
in at most one row, and the items table is keyed in step — holds after
construction and is preserved by every `update`. -/
theorem C4_order_invariant (env : Env) (st : HState) (fetched r0 : List TxRecord)
    (hinv : histInv st) :
    histInv (initState env r0) ∧ histInv (update env st fetched) :=
  ⟨initState_inv env r0, update_inv env st fetched hinv⟩

theorem C4_order_invariant_witness :
    histInv (initState env0 [recA])
    ∧ (histInv (initState env0 [recA, recB])
      ∧ histInv (update env0 (initState env0 [recA]) [recB])) :=
  ⟨by decide,
   C4_order_invariant env0 (initState env0 [recA]) [recB] [recA, recB] (by decide)⟩

/-- C5: during the full reconciliation walk, a displayed hash whose
record agrees with every fetched occurrence of that hash (and which is
still fetched) keeps its row's cells completely untouched: its items
binding is unchanged. -/
theorem C5_unchanged_rows_untouched (env : Env) (st : HState) (fetched : List TxRecord)
    (txid : String) (rc : TxRecord)
    (h1 : limit_confirmations fetched ≠ st.transactions.map Prod.snd)
    (h2 : (limit_confirmations fetched).dropLast ≠ st.transactions.map Prod.snd)
    (hlook : lookupKey txid st.transactions = some rc)
    (hall : ∀ row ∈ fetched, row.txid = txid → limit_tx row = rc)
    (hin : txid ∈ fetched.map TxRecord.txid) :
    lookupKey txid (update env st fetched).txid_to_items
      = lookupKey txid st.txid_to_items := by
  rw [update_eq_full env st fetched h1 h2]
  refine fullReconcile_frame env st _ txid rc hlook ?_ ?_
  · intro row hrow heq
    obtain ⟨row0, hrow0, rfl⟩ := List.mem_map.mp hrow
    rw [limit_txid] at heq
    exact hall row0 hrow0 heq
  · rw [limit_map_txid]
    exact hin

theorem C5_unchanged_rows_untouched_witness :
    (limit_confirmations [recA, recB']
        ≠ (initState env0 [recA, recB]).transactions.map Prod.snd
      ∧ (limit_confirmations [recA, recB']).dropLast
          ≠ (initState env0 [recA, recB]).transactions.map Prod.snd
      ∧ lookupKey "aa" (initState env0 [recA, recB]).transactions = some recA
      ∧ (∀ row ∈ [recA, recB'], row.txid = "aa" → limit_tx row = recA)
      ∧ "aa" ∈ [recA, recB'].map TxRecord.txid)
    ∧ lookupKey "aa" (update env0 (initState env0 [recA, recB]) [recA, recB']).txid_to_items
        = lookupKey "aa" (initState env0 [recA, recB]).txid_to_items :=
  ⟨⟨by decide, by decide, by decide, by decide, by decide⟩,
   C5_unchanged_rows_untouched env0 (initState env0 [recA, recB]) [recA, recB'] "aa" recA
     (by decide) (by decide) (by decide) (by decide) (by decide)⟩

/-- C6 is contradicted by the code (a code bug in `hide_row`): the
claimed rule is visible ⟺ text-predicate ∧ date-predicate
(`spec_visible`), but the source's `for`/`else` falls through to
`setRowHidden(..., False)`, so (i) with filter "zzz" and no date range,
a row none of whose filter columns contains "zzz" is left visible while
the claim says it is hidden, and (ii) with filter "hello" matching the
Description column and a date range [60, 70] excluding the row's date
10, the text match short-circuits and the row is left visible while the
claim says it is hidden.  (`hide_row ... = false` means the row is
shown.) -/
theorem C6_filter_divergence :
    (hide_row "zzz" none none rowC6 [("aa", recA)] = false
      ∧ spec_visible "zzz" none none rowC6 [("aa", recA)] = false)
    ∧ (hide_row "hello" (some 60) (some 70) rowC6 [("aa", recA)] = false
      ∧ spec_visible "hello" (some 60) (some 70) rowC6 [("aa", recA)] = false) := by
  decide

/-- C7: CSV export writes the eight-column header
(hash, label, confirmations, value, fiat value, fee, fiat fee,
timestamp) followed by exactly one line per transaction in the mapping's
iteration order, each line holding that record's corresponding fields
(`csv_line`); JSON export dumps the same records. -/
theorem C7_export_shape (txs : List (String × TxRecord)) :
    do_export_history txs true
      = ExportOut.csv (csv_header :: (txs.map Prod.snd).map csv_line)
    ∧ csv_header.length = 8
    ∧ do_export_history txs false = ExportOut.js (txs.map Prod.snd) := by
  refine ⟨?_, rfl, rfl⟩
  unfold do_export_history
  simp [build_lines_eq]

/-- C8: every `IOError` or `os.error` raised while exporting is caught
by `export_history_dialog` and surfaced as the critical "Unable to
export history" dialog; the handler returns normally (no exception
escapes). -/
theorem C8_export_io_errors (filename m : String) (hn : filename ≠ "") :
    export_history_dialog true filename (Except.error (PyExc.ioErr m))
      = Except.ok [UserDialog.critical "Unable to export history"
          ("Electrum was unable to produce a transaction export." ++ "\n" ++ m)]
    ∧ export_history_dialog true filename (Except.error (PyExc.osErr m))
      = Except.ok [UserDialog.critical "Unable to export history"
          ("Electrum was unable to produce a transaction export." ++ "\n" ++ m)] := by
  constructor <;> simp [export_history_dialog, hn]

theorem C8_export_io_errors_witness :
    ("out.csv" ≠ "")
    ∧ export_history_dialog true "out.csv" (Except.error (PyExc.ioErr "disk full"))
        = Except.ok [UserDialog.critical "Unable to export history"
            ("Electrum was unable to produce a transaction export." ++ "\n" ++ "disk full")] :=
  ⟨by decide, (C8_export_io_errors "out.csv" "disk full" (by decide)).1⟩

/-- C9: a dropped transaction file whose contents are malformed (the
parse yields nothing) is reported via an error dialog and the handler
returns normally — no exception escapes.  (Spec-modelled:
`main_window.tx_from_text` / `save_transaction_into_wallet` are not
under `src/`; per spec section 7 a malformed file is reported via a
dialog rather than raising.) -/
theorem C9_malformed_import (parse : String → Option Tx) (wallet : List Tx)
    (contents : String) (h : parse contents = none) :
    onFileAdded parse wallet (FileReadResult.okRead contents)
      = Except.ok (wallet,
          [UserDialog.errorDialog "Electrum was unable to parse your transaction"]) := by
  simp [onFileAdded, tx_from_text, save_transaction_into_wallet, h]

theorem C9_malformed_import_witness :
    ((fun _ : String => (none : Option Tx)) "garbage" = none)
    ∧ onFileAdded (fun _ => none) [] (FileReadResult.okRead "garbage")
        = Except.ok ([],
            [UserDialog.errorDialog "Electrum was unable to parse your transaction"]) :=
  ⟨rfl, C9_malformed_import (fun _ => none) [] "garbage" rfl⟩

/-- C10: after construction and after every `update`, the key list of
the `txid_to_items` table equals the key list of the transactions
mapping — every displayed hash has exactly one item list and vice
versa. -/
theorem C10_keyset_agreement (env : Env) (st : HState) (fetched r0 : List TxRecord)
    (hinv : histInv st) :
    keyList (initState env r0).txid_to_items = keyList (initState env r0).transactions
    ∧ keyList (update env st fetched).txid_to_items
        = keyList (update env st fetched).transactions :=
  ⟨(initState_inv env r0).2.2, (update_inv env st fetched hinv).2.2⟩

theorem C10_keyset_agreement_witness :
    histInv (initState env0 [recB])
    ∧ (keyList (initState env0 [recA, recB]).txid_to_items
          = keyList (initState env0 [recA, recB]).transactions
      ∧ keyList (update env0 (initState env0 [recB]) [recA, recB]).txid_to_items
          = keyList (update env0 (initState env0 [recB]) [recA, recB]).transactions) :=
  ⟨by decide,
   C10_keyset_agreement env0 (initState env0 [recB]) [recA, recB] [recA, recB] (by decide)⟩
